import Mathlib

/-!
Verification of `gindex.py`.

The script `gindex.py` walks a directory tree and writes, for every immediate
subdirectory of the working directory, a Markdown file `index.md` listing the
Markdown files and subdirectories in nested bullet form.

This file gives a shallow embedding of the script and proves the stated
properties of its rendering algorithm.

Modelling conventions:

* A directory tree is the inductive `FSTree`.  A directory carries a `Bool`
  saying whether `os.listdir` on it succeeds (`false` models a
  `PermissionError`).  Children of a directory are its entries; `other`
  models filesystem children that are neither directories nor regular files
  (the script skips them).
* Paths are tracked as the list of directory-name components between the scan
  root and the current directory; `os.path.relpath(current, root)` for
  `current = root/c1/.../cn` is `"."` when the list is empty and the
  components joined by the host separator `sep` otherwise (`relpathString`).
* Python string operations used by the script are modelled at the level of
  character lists: `item.endswith(".md")` is `endsWithMd`, `md_file[:-3]` is
  `pyDropLast3`, `s.replace('\\', '/')` (a single-character replacement,
  hence a character map) is `pyReplaceBackslash`, and the truthiness of
  `s.strip()` (nonempty after removing leading/trailing whitespace, i.e.
  some character is not whitespace) is `pyStripNonempty`.
* `sorted(...)` on a list of strings is `pySort`, insertion sort by the
  code-point lexicographic order on strings (Python's `sorted` is a stable
  sort under the same order; on strings, equal elements are identical, so
  any sorted permutation is the same list).
* `os.path.isdir` / `os.path.isfile` applied to `os.path.join(current, item)`
  where `item` was returned by `os.listdir(current)` resolve the entry named
  `item` in the current directory: `findChild` followed by a kind test.
-/

/-- One node of a directory tree.  `dir name listable children`: `listable`
is `false` when `os.listdir` raises `PermissionError` on this directory.
`other` is a child that is neither a regular file nor a directory. -/
inductive FSTree where
  | file (name : String) : FSTree
  | other (name : String) : FSTree
  | dir (name : String) (listable : Bool) (children : List FSTree) : FSTree

/-- The name of an entry, as `os.listdir` of its parent reports it. -/
def FSTree.name : FSTree → String
  | .file n => n
  | .other n => n
  | .dir n _ _ => n

/-- Function `is_ignored_dir` of `gindex.py`: membership in `{'.git', '__pycache__',
'.DS_Store'}`. -/
def is_ignored_dir (dir_name : String) : Bool :=
  dir_name == ".git" || dir_name == "__pycache__" || dir_name == ".DS_Store"

/-- Python `sorted` on a list of strings: the sorted permutation under the
code-point lexicographic order. -/
def pySort (l : List String) : List String :=
  l.insertionSort (· ≤ ·)

/-- Resolve the entry named `n` among the children of the current directory
(the filesystem object at `os.path.join(current, n)`); `find?` because a real
directory listing holds at most one entry per name. -/
def findChild (children : List FSTree) (n : String) : Option FSTree :=
  children.find? (fun c => c.name == n)

/-- Model of `os.path.isdir(os.path.join(current, n))` for a listed name `n`. -/
def isdir (children : List FSTree) (n : String) : Bool :=
  match findChild children n with
  | some (.dir _ _ _) => true
  | _ => false

/-- Model of `os.path.isfile(os.path.join(current, n))` for a listed name `n`. -/
def isfile (children : List FSTree) (n : String) : Bool :=
  match findChild children n with
  | some (.file _) => true
  | _ => false

/-- Python `item.endswith('.md')`: the last three characters are `.md`. -/
def endsWithMd (s : String) : Bool :=
  ['.', 'm', 'd'].isSuffixOf s.data

/-- Python `md_file[:-3]`: drop the last three characters. -/
def pyDropLast3 (s : String) : String :=
  ⟨s.data.take (s.data.length - 3)⟩

/-- Python `s.replace('\\', '/')`: both arguments are single characters, so the
replacement maps every backslash character to a forward slash. -/
def pyReplaceBackslash (s : String) : String :=
  ⟨s.data.map (fun c => if c = '\\' then '/' else c)⟩

/-- Truthiness of `s.strip()`: Python's `strip` removes leading and trailing
whitespace, so the result is nonempty exactly when some character of `s` is
not whitespace. -/
def pyStripNonempty (s : String) : Bool :=
  s.data.any (fun c => !c.isWhitespace)

/-- Python `"    " * base_indent`: four spaces per recursion depth. -/
def indentStr : Nat → String
  | 0 => ""
  | n + 1 => "    " ++ indentStr n

/-- Join path components with the host separator character. -/
def joinSep (sep : Char) : List String → String
  | [] => ""
  | [c] => c
  | c :: cs => c ++ String.singleton sep ++ joinSep sep cs

/-- Model of `os.path.relpath(current_path, root_path)` where `current_path` is
`root_path` extended by the directory components `comps`: `"."` when they
are equal, otherwise the components joined by the host separator. -/
def relpathString (sep : Char) (comps : List String) : String :=
  if comps.isEmpty then "." else joinSep sep comps

/-- Model of `os.path.join(a, b)` for a directory `a` and a child name `b`. -/
def joinPath (sep : Char) (a b : String) : String :=
  a ++ String.singleton sep ++ b

/-- The line emitted for one Markdown file by the file loop of
`generate_nested_list`: display name is the filename without its last three
characters, the link is the filename alone at the scan root and otherwise the
separator-normalized relative directory joined to the filename with `/`. -/
def file_line (sep : Char) (relDir : List String) (base_indent : Nat)
    (md_file : String) : String :=
  let display_name := pyDropLast3 md_file
  let relative_dir := relpathString sep relDir
  let file_link :=
    if relative_dir = "." then md_file
    else pyReplaceBackslash relative_dir ++ "/" ++ md_file
  indentStr base_indent ++ "* [" ++ display_name ++ "](" ++ file_link ++ ")\n"

/-- The `markdown_files` list built by the classification loop of
`generate_nested_list`: sorted listing filtered to the names that fall into
the `elif` branch (`os.path.isfile(...) and item.endswith('.md') and
item != 'index.md'`, and not already taken by the directory branch). -/
def markdown_filesOf (children : List FSTree) : List String :=
  (pySort (children.map FSTree.name)).filter (fun item =>
    !(isdir children item && !is_ignored_dir item) &&
      (isfile children item && endsWithMd item && item != "index.md"))

/-- The `directories` list built by the classification loop of
`generate_nested_list`: sorted listing filtered to the names with
`os.path.isdir(...) and not is_ignored_dir(item)`. -/
def directoriesOf (children : List FSTree) : List String :=
  (pySort (children.map FSTree.name)).filter (fun item =>
    isdir children item && !is_ignored_dir item)

/-- The concatenation of a list of rendered pieces: the script accumulates
them into `result` with `+=`, one piece per loop iteration. -/
def concatLines : List String → String
  | [] => ""
  | s :: rest => s ++ concatLines rest

/-- Function `generate_nested_list(root_path, current_path, base_indent)` of
`gindex.py`, with the current directory given as a tree node and its position
below the scan root as the component list `relDir`.  A `PermissionError`
on listing yields the single inaccessibility bullet; otherwise all Markdown
files are rendered first, then each subdirectory as a plain bullet followed
by its recursively rendered fragment one level deeper.  (Appending the empty
string models Python's `if sub_list:` guard, which only skips an empty
fragment.)  The function is never invoked on non-directories; those cases
return the empty string. -/
def generate_nested_list (sep : Char) (relDir : List String)
    (base_indent : Nat) : FSTree → String
  | .file _ => ""
  | .other _ => ""
  | .dir _ false _ => indentStr base_indent ++ "* [无法访问目录]\n"
  | .dir _ true children =>
    concatLines ((markdown_filesOf children).map
      (file_line sep relDir base_indent)) ++
    concatLines ((directoriesOf children).map (fun directory =>
      indentStr base_indent ++ "* " ++ directory ++ "\n" ++
        match _h : findChild children directory with
        | some child =>
            generate_nested_list sep (relDir ++ [directory]) (base_indent + 1)
              child
        | none => ""))
termination_by t => sizeOf t
decreasing_by
  have hmem := List.mem_of_find?_eq_some _h
  have hlt := List.sizeOf_lt_of_mem hmem
  simp only [FSTree.dir.sizeOf_spec]
  omega

/-- The fragment contributed below one directory bullet: the recursive call
on the resolved child (empty if the name no longer resolves, which cannot
happen for a name taken from the listing). -/
def renderSub (sep : Char) (relDir : List String) (base_indent : Nat)
    (children : List FSTree) (directory : String) : String :=
  match findChild children directory with
  | some child =>
      generate_nested_list sep (relDir ++ [directory]) (base_indent + 1) child
  | none => ""

@[simp] theorem generate_nested_list_file (sep : Char) (relDir : List String)
    (i : Nat) (n : String) : generate_nested_list sep relDir i (.file n) = "" := by
  simp [generate_nested_list]

@[simp] theorem generate_nested_list_other (sep : Char) (relDir : List String)
    (i : Nat) (n : String) : generate_nested_list sep relDir i (.other n) = "" := by
  simp [generate_nested_list]

@[simp] theorem generate_nested_list_denied (sep : Char) (relDir : List String)
    (i : Nat) (n : String) (cs : List FSTree) :
    generate_nested_list sep relDir i (.dir n false cs) =
      indentStr i ++ "* [无法访问目录]\n" := by
  simp [generate_nested_list]

@[simp] theorem generate_nested_list_dir (sep : Char) (relDir : List String)
    (i : Nat) (n : String) (cs : List FSTree) :
    generate_nested_list sep relDir i (.dir n true cs) =
      concatLines ((markdown_filesOf cs).map (file_line sep relDir i)) ++
      concatLines ((directoriesOf cs).map (fun directory =>
        indentStr i ++ "* " ++ directory ++ "\n" ++
          renderSub sep relDir i cs directory)) := by
  rw [generate_nested_list]
  congr 1
  refine congrArg concatLines (List.map_congr_left ?_)
  intro directory _
  congr 1
  unfold renderSub
  split <;> rename_i h <;> simp [h]

/-- Function `generate_markdown_index(root_path, output_file)` of `gindex.py`: the
full text written to the output file, for a scanned root directory given as
a tree.  `os.path.basename(os.path.normpath(root_path))` is the root
directory's own name, the node's `name`.  The placeholder bullet is written
exactly when `nested_list.strip()` is falsy. -/
def generate_markdown_index (sep : Char) (root : FSTree) : String :=
  let root_name := FSTree.name root
  let nested_list := generate_nested_list sep [] 0 root
  "# " ++ root_name ++ "\n\n" ++ "## 目录\n\n" ++
    (if pyStripNonempty nested_list then nested_list else "* 暂无内容\n")

/-- The content of the output file after `generate_markdown_index` returns:
the file is opened with mode `'w'`, which truncates, so whatever the file
held before (`previous`) is discarded and the written text depends only on
the scanned tree. -/
def written_file_content (previous : String) (sep : Char) (root : FSTree) :
    String :=
  generate_markdown_index sep root

/-- Result of one run of `main`: the lines printed, and the process exit
status (`sys.exit(1)` on a `PermissionError` from listing the working
directory, normal termination — status `0` — otherwise). -/
structure DriverResult where
  printed : List String
  exit_code : Nat

/-- The `directories` list built by `main`: the working directory's listing
(raw `os.listdir` order, unsorted), filtered to the names whose entry is a
directory and is not ignored. -/
def mainDirectoriesOf (items : List FSTree) : List String :=
  (items.map FSTree.name).filter (fun item =>
    isdir items item && !is_ignored_dir item)

/-- The line `main` prints for one subdirectory: the success message naming
the output file, or — when generating that subdirectory's index raises any
exception, modelled by the outcome `gen directory` — the per-directory error
message.  The `try/except` around the body of the loop catches the
exception, so the outcome for one directory determines only its own line. -/
def per_directory_line (sep : Char) (current_dir : String)
    (gen : String → Except String Unit) (directory : String) : String :=
  let dir_path := joinPath sep current_dir directory
  let output_file := joinPath sep dir_path "index.md"
  match gen directory with
  | .ok _ => "已成功生成索引文件: " ++ output_file
  | .error e => "为目录 '" ++ directory ++ "' 生成索引文件时出错: " ++ e

/-- One run of `main`.  `items` is the working directory's listing (`none`
models `os.listdir(current_dir)` raising `PermissionError`); `gen d` is the
outcome of generating the index for the subdirectory named `d` (an
`Except.error` models any exception escaping `generate_markdown_index`,
e.g. from the file writes). -/
def main_model (sep : Char) (current_dir : String)
    (items : Option (List FSTree)) (gen : String → Except String Unit) :
    DriverResult :=
  match items with
  | none => ⟨["错误: 无法访问当前目录"], 1⟩
  | some items =>
    let directories := mainDirectoriesOf items
    if directories.isEmpty then ⟨["当前目录下没有子目录"], 0⟩
    else ⟨directories.map (per_directory_line sep current_dir gen), 0⟩

/-- The effect of the generator's own write on the scanned tree: one file
named `index.md` appears at the top of the scan root (or, when an entry of
that name already exists, the file is rewritten and the tree of names is
unchanged). -/
def addIndexFile : FSTree → FSTree
  | .dir n true cs =>
      if cs.any (fun c => FSTree.name c == "index.md") then .dir n true cs
      else .dir n true (cs ++ [.file "index.md"])
  | t => t

/-- Forget the contents of a directory node (keeping its name and
listability); identity on non-directories. -/
def dropContents : FSTree → FSTree
  | .dir n b _ => .dir n b []
  | t => t

/-- Discard everything below unlistable directories: the contents a
`PermissionError` hides from the scan. -/
def pruneDenied : FSTree → FSTree
  | .file n => .file n
  | .other n => .other n
  | .dir n false _ => .dir n false []
  | .dir n true cs => .dir n true (cs.attach.map (fun c => pruneDenied c.1))
termination_by t => sizeOf t
decreasing_by
  have hlt := List.sizeOf_lt_of_mem c.2
  simp only [FSTree.dir.sizeOf_spec]
  omega

/-- Discard everything below ignored-name directories: the contents the
traversal never descends into. -/
def pruneIgnored : FSTree → FSTree
  | .file n => .file n
  | .other n => .other n
  | .dir n b cs => .dir n b (cs.attach.map (fun c =>
      if is_ignored_dir (FSTree.name c.1) then dropContents c.1
      else pruneIgnored c.1))
termination_by t => sizeOf t
decreasing_by
  have hlt := List.sizeOf_lt_of_mem c.2
  simp only [FSTree.dir.sizeOf_spec]
  omega

/-- No entry name anywhere in the tree contains a backslash character (true
of every real directory tree on Windows, where the separator is `'\'`; a
POSIX file name may contain one). -/
def namesBackslashFree : FSTree → Bool
  | .file n => n.data.all (fun c => !(c == '\\'))
  | .other n => n.data.all (fun c => !(c == '\\'))
  | .dir n _ cs => n.data.all (fun c => !(c == '\\')) &&
      cs.attach.all (fun c => namesBackslashFree c.1)
termination_by t => sizeOf t
decreasing_by
  have hlt := List.sizeOf_lt_of_mem c.2
  simp only [FSTree.dir.sizeOf_spec]
  omega

/-- Induction over a tree with the hypothesis available for every child of
a directory node. -/
def FSTree.inductionOn {motive : FSTree → Prop}
    (hfile : ∀ n, motive (.file n))
    (hother : ∀ n, motive (.other n))
    (hdir : ∀ n b cs, (∀ c ∈ cs, motive c) → motive (.dir n b cs)) :
    ∀ t, motive t
  | .file n => hfile n
  | .other n => hother n
  | .dir n b cs => hdir n b cs (fun c hc =>
      FSTree.inductionOn hfile hother hdir c)
termination_by t => sizeOf t
decreasing_by
  have hlt := List.sizeOf_lt_of_mem hc
  simp only [FSTree.dir.sizeOf_spec]
  omega

/-! ### Basic facts about the scanner model -/

theorem findChild_name {cs : List FSTree} {x : String} {c : FSTree}
    (h : findChild cs x = some c) : FSTree.name c = x := by
  have := List.find?_some h
  simpa using this

theorem findChild_mem {cs : List FSTree} {x : String} {c : FSTree}
    (h : findChild cs x = some c) : c ∈ cs :=
  List.mem_of_find?_eq_some h

theorem isfile_eq_true {cs : List FSTree} {x : String} :
    isfile cs x = true ↔ findChild cs x = some (.file x) := by
  unfold isfile
  constructor
  · intro h
    cases hf : findChild cs x with
    | none => rw [hf] at h; simp at h
    | some c =>
      cases c with
      | file m =>
        have := findChild_name hf
        simp [FSTree.name] at this
        rw [this]
      | other m => rw [hf] at h; simp at h
      | dir m b gs => rw [hf] at h; simp at h
  · intro h
    rw [h]

theorem isdir_eq_true {cs : List FSTree} {x : String} :
    isdir cs x = true ↔ ∃ b gs, findChild cs x = some (.dir x b gs) := by
  unfold isdir
  constructor
  · intro h
    cases hf : findChild cs x with
    | none => rw [hf] at h; simp at h
    | some c =>
      cases c with
      | file m => rw [hf] at h; simp at h
      | other m => rw [hf] at h; simp at h
      | dir m b gs =>
        have := findChild_name hf
        simp [FSTree.name] at this
        exact ⟨b, gs, by rw [this]⟩
  · rintro ⟨b, gs, h⟩
    rw [h]

theorem findChild_eq_some_of_mem {cs : List FSTree} {c : FSTree}
    (hnd : (cs.map FSTree.name).Nodup) (hc : c ∈ cs) :
    findChild cs (FSTree.name c) = some c := by
  have hsome : (findChild cs (FSTree.name c)).isSome := by
    rw [findChild, List.find?_isSome]
    exact ⟨c, hc, by simp⟩
  cases hf : findChild cs (FSTree.name c) with
  | none => rw [hf] at hsome; simp at hsome
  | some d =>
    have hdc : d = c :=
      List.inj_on_of_nodup_map hnd (findChild_mem hf) hc (findChild_name hf)
    rw [hdc]

theorem pySort_perm (l : List String) : (pySort l).Perm l :=
  List.perm_insertionSort _ l

theorem mem_pySort {l : List String} {x : String} : x ∈ pySort l ↔ x ∈ l :=
  (pySort_perm l).mem_iff

theorem pySort_nodup {l : List String} (h : l.Nodup) : (pySort l).Nodup :=
  ((pySort_perm l).nodup_iff).mpr h

theorem pySort_sorted (l : List String) : (pySort l).Sorted (· ≤ ·) :=
  List.sorted_insertionSort _ l

@[simp] theorem concatLines_nil : concatLines [] = "" := rfl

@[simp] theorem concatLines_cons (s : String) (rest : List String) :
    concatLines (s :: rest) = s ++ concatLines rest := rfl

theorem mem_data_concatLines {ch : Char} {l : List String} {s : String}
    (hs : s ∈ l) (hc : ch ∈ s.data) : ch ∈ (concatLines l).data := by
  induction l with
  | nil => cases hs
  | cons a rest ih =>
    rw [concatLines_cons, String.data_append]
    rcases List.mem_cons.mp hs with h | h
    · subst h
      exact List.mem_append.mpr (Or.inl hc)
    · exact List.mem_append.mpr (Or.inr (ih h))

theorem data_concatLines_subset {ch : Char} {l : List String}
    (h : ch ∈ (concatLines l).data) : ∃ s ∈ l, ch ∈ s.data := by
  induction l with
  | nil => simp [concatLines] at h
  | cons a rest ih =>
    rw [concatLines_cons, String.data_append] at h
    rcases List.mem_append.mp h with h | h
    · exact ⟨a, by simp, h⟩
    · rcases ih h with ⟨s, hs, hcs⟩
      exact ⟨s, by simp [hs], hcs⟩

/-! ### String-level facts -/

@[simp] theorem data_singleton (c : Char) : (String.singleton c).data = [c] :=
  rfl

theorem joinSep_cons_cons (sep : Char) (c d : String) (cs : List String) :
    joinSep sep (c :: d :: cs) =
      c ++ String.singleton sep ++ joinSep sep (d :: cs) := rfl

theorem joinSep_ne_dot {sep : Char} {comps : List String}
    (hsep : sep ≠ '.') (hc : ∀ c ∈ comps, c ≠ ".") (hne : comps ≠ []) :
    joinSep sep comps ≠ "." := by
  cases comps with
  | nil => exact absurd rfl hne
  | cons c rest =>
    cases rest with
    | nil => simpa [joinSep] using hc c (by simp)
    | cons d cs =>
      intro habs
      have hdata : c.data ++ sep :: (joinSep sep (d :: cs)).data = ['.'] := by
        have h2 := congrArg String.data habs
        simpa [joinSep_cons_cons, String.data_append] using h2
      have hc0 : c.data = [] := by
        cases hcd : c.data with
        | nil => rfl
        | cons x xs =>
          rw [hcd] at hdata
          have := congrArg List.length hdata
          simp at this
      rw [hc0] at hdata
      simp at hdata
      exact hsep hdata.1

theorem relpathString_eq_dot_iff {sep : Char} {comps : List String}
    (hsep : sep ≠ '.') (hc : ∀ c ∈ comps, c ≠ ".") :
    relpathString sep comps = "." ↔ comps = [] := by
  unfold relpathString
  cases comps with
  | nil => simp
  | cons c rest =>
    simp only [List.isEmpty_cons, Bool.false_eq_true, if_false]
    constructor
    · intro h
      exact absurd h (joinSep_ne_dot hsep hc (by simp))
    · intro h
      cases h

theorem pyReplaceBackslash_of_no_backslash {s : String}
    (h : '\\' ∉ s.data) : pyReplaceBackslash s = s := by
  unfold pyReplaceBackslash
  have hpt : ∀ c ∈ s.data, (if c = '\\' then '/' else c) = id c := by
    intro c hc
    rw [if_neg, id]
    intro heq
    subst heq
    exact h hc
  rw [List.map_congr_left hpt, List.map_id]

theorem pyReplaceBackslash_append (s t : String) :
    pyReplaceBackslash (s ++ t) =
      pyReplaceBackslash s ++ pyReplaceBackslash t := by
  apply String.ext
  simp [pyReplaceBackslash, String.data_append]

theorem pyReplaceBackslash_singleton {sep : Char}
    (hsep : sep = '/' ∨ sep = '\\') :
    pyReplaceBackslash (String.singleton sep) = String.singleton '/' := by
  rcases hsep with h | h <;> subst h <;> rfl

theorem pyReplaceBackslash_joinSep {sep : Char} {comps : List String}
    (hsep : sep = '/' ∨ sep = '\\') (hc : ∀ c ∈ comps, '\\' ∉ c.data) :
    pyReplaceBackslash (joinSep sep comps) = joinSep '/' comps := by
  induction comps with
  | nil => rfl
  | cons c rest ih =>
    cases rest with
    | nil => exact pyReplaceBackslash_of_no_backslash (hc c (by simp))
    | cons d cs =>
      rw [joinSep_cons_cons, joinSep_cons_cons, pyReplaceBackslash_append,
        pyReplaceBackslash_append,
        pyReplaceBackslash_of_no_backslash (hc c (by simp)),
        pyReplaceBackslash_singleton hsep,
        ih (fun x hx => hc x (by simp [hx]))]

theorem pyDropLast3_append_md {s : String} (h : endsWithMd s = true) :
    pyDropLast3 s ++ ".md" = s := by
  unfold endsWithMd at h
  rw [List.isSuffixOf_iff_suffix] at h
  rcases h with ⟨t, ht⟩
  apply String.ext
  rw [String.data_append]
  show (pyDropLast3 s).data ++ ['.', 'm', 'd'] = s.data
  have hdrop : (pyDropLast3 s).data = t := by
    show s.data.take (s.data.length - 3) = t
    rw [← ht]
    have hlen : (t ++ ['.', 'm', 'd']).length - 3 = t.length := by
      simp
    rw [hlen, List.take_left]
  rw [hdrop, ht]

/-! ### Normalizing the `attach`-based recursions -/

theorem attachMap_eq_map (f : FSTree → FSTree) (cs : List FSTree) :
    cs.attach.map (fun c => f c.1) = cs.map f :=
  List.attach_map_val cs f

theorem attachAll_eq_all (p : FSTree → Bool) (cs : List FSTree) :
    cs.attach.all (fun c => p c.1) = cs.all p := by
  rw [Bool.eq_iff_iff, List.all_eq_true, List.all_eq_true]
  constructor
  · intro h a ha
    exact h ⟨a, ha⟩ (List.mem_attach _ _)
  · intro h c _
    exact h c.1 c.2

@[simp] theorem pruneDenied_file (n : String) :
    pruneDenied (.file n) = .file n := by
  rw [pruneDenied]

@[simp] theorem pruneDenied_other (n : String) :
    pruneDenied (.other n) = .other n := by
  rw [pruneDenied]

@[simp] theorem pruneDenied_dir_false (n : String) (cs : List FSTree) :
    pruneDenied (.dir n false cs) = .dir n false [] := by
  rw [pruneDenied]

theorem pruneDenied_dir_true (n : String) (cs : List FSTree) :
    pruneDenied (.dir n true cs) = .dir n true (cs.map pruneDenied) := by
  rw [pruneDenied, attachMap_eq_map]

@[simp] theorem pruneIgnored_file (n : String) :
    pruneIgnored (.file n) = .file n := by
  rw [pruneIgnored]

@[simp] theorem pruneIgnored_other (n : String) :
    pruneIgnored (.other n) = .other n := by
  rw [pruneIgnored]

theorem pruneIgnored_dir (n : String) (b : Bool) (cs : List FSTree) :
    pruneIgnored (.dir n b cs) = .dir n b (cs.map (fun c =>
      if is_ignored_dir (FSTree.name c) then dropContents c
      else pruneIgnored c)) := by
  rw [pruneIgnored, attachMap_eq_map (fun c =>
    if is_ignored_dir (FSTree.name c) then dropContents c
    else pruneIgnored c)]

@[simp] theorem namesBackslashFree_file (n : String) :
    namesBackslashFree (.file n) = n.data.all (fun c => !(c == '\\')) := by
  rw [namesBackslashFree]

@[simp] theorem namesBackslashFree_other (n : String) :
    namesBackslashFree (.other n) = n.data.all (fun c => !(c == '\\')) := by
  rw [namesBackslashFree]

theorem namesBackslashFree_dir (n : String) (b : Bool) (cs : List FSTree) :
    namesBackslashFree (.dir n b cs) =
      (n.data.all (fun c => !(c == '\\')) &&
        cs.all namesBackslashFree) := by
  rw [namesBackslashFree, attachAll_eq_all]

/-! ### Child transformations invisible to a single listing

A transformation of the children that preserves each entry's name, kind and
listability does not change what the classification loop sees. -/

section Surface

variable {g : FSTree → FSTree}

theorem name_surface (hgf : ∀ n, g (.file n) = .file n)
    (hgo : ∀ n, g (.other n) = .other n)
    (hgd : ∀ n b cs, ∃ cs', g (.dir n b cs) = .dir n b cs')
    (c : FSTree) : (g c).name = c.name := by
  cases c with
  | file n => rw [hgf]
  | other n => rw [hgo]
  | dir n b cs =>
    rcases hgd n b cs with ⟨cs', h⟩
    rw [h]
    rfl

theorem map_name_surface (hgf : ∀ n, g (.file n) = .file n)
    (hgo : ∀ n, g (.other n) = .other n)
    (hgd : ∀ n b cs, ∃ cs', g (.dir n b cs) = .dir n b cs')
    (cs : List FSTree) : (cs.map g).map FSTree.name = cs.map FSTree.name := by
  rw [List.map_map]
  exact List.map_congr_left (fun c _ => name_surface hgf hgo hgd c)

theorem findChild_map_surface (hgf : ∀ n, g (.file n) = .file n)
    (hgo : ∀ n, g (.other n) = .other n)
    (hgd : ∀ n b cs, ∃ cs', g (.dir n b cs) = .dir n b cs')
    (cs : List FSTree) (x : String) :
    findChild (cs.map g) x = (findChild cs x).map g := by
  rw [findChild, findChild, List.find?_map]
  have hpred : ((fun c : FSTree => c.name == x) ∘ g) =
      (fun c : FSTree => c.name == x) := by
    funext c
    simp [Function.comp, name_surface hgf hgo hgd c]
  rw [hpred]

theorem isdir_map_surface (hgf : ∀ n, g (.file n) = .file n)
    (hgo : ∀ n, g (.other n) = .other n)
    (hgd : ∀ n b cs, ∃ cs', g (.dir n b cs) = .dir n b cs')
    (cs : List FSTree) (x : String) : isdir (cs.map g) x = isdir cs x := by
  rw [isdir, isdir, findChild_map_surface hgf hgo hgd]
  cases hf : findChild cs x with
  | none => simp
  | some c =>
    cases c with
    | file n => simp [hgf]
    | other n => simp [hgo]
    | dir n b gs =>
      rcases hgd n b gs with ⟨gs', hg⟩
      simp [hg]

theorem isfile_map_surface (hgf : ∀ n, g (.file n) = .file n)
    (hgo : ∀ n, g (.other n) = .other n)
    (hgd : ∀ n b cs, ∃ cs', g (.dir n b cs) = .dir n b cs')
    (cs : List FSTree) (x : String) : isfile (cs.map g) x = isfile cs x := by
  rw [isfile, isfile, findChild_map_surface hgf hgo hgd]
  cases hf : findChild cs x with
  | none => simp
  | some c =>
    cases c with
    | file n => simp [hgf]
    | other n => simp [hgo]
    | dir n b gs =>
      rcases hgd n b gs with ⟨gs', hg⟩
      simp [hg]

theorem markdown_filesOf_map_surface (hgf : ∀ n, g (.file n) = .file n)
    (hgo : ∀ n, g (.other n) = .other n)
    (hgd : ∀ n b cs, ∃ cs', g (.dir n b cs) = .dir n b cs')
    (cs : List FSTree) : markdown_filesOf (cs.map g) = markdown_filesOf cs := by
  rw [markdown_filesOf, markdown_filesOf, map_name_surface hgf hgo hgd]
  refine List.filter_congr (fun x _ => ?_)
  rw [isdir_map_surface hgf hgo hgd, isfile_map_surface hgf hgo hgd]

theorem directoriesOf_map_surface (hgf : ∀ n, g (.file n) = .file n)
    (hgo : ∀ n, g (.other n) = .other n)
    (hgd : ∀ n b cs, ∃ cs', g (.dir n b cs) = .dir n b cs')
    (cs : List FSTree) : directoriesOf (cs.map g) = directoriesOf cs := by
  rw [directoriesOf, directoriesOf, map_name_surface hgf hgo hgd]
  refine List.filter_congr (fun x _ => ?_)
  rw [isdir_map_surface hgf hgo hgd]

end Surface

theorem pruneDenied_dir_shape (n : String) (b : Bool) (cs : List FSTree) :
    ∃ cs', pruneDenied (.dir n b cs) = .dir n b cs' := by
  cases b with
  | false => exact ⟨[], pruneDenied_dir_false n cs⟩
  | true => exact ⟨cs.map pruneDenied, pruneDenied_dir_true n cs⟩

/-- The transformation `pruneIgnored` applies to each child of a directory. -/
def pruneIgnoredStep (c : FSTree) : FSTree :=
  if is_ignored_dir (FSTree.name c) then dropContents c else pruneIgnored c

theorem pruneIgnored_dir_step (n : String) (b : Bool) (cs : List FSTree) :
    pruneIgnored (.dir n b cs) = .dir n b (cs.map pruneIgnoredStep) := by
  rw [pruneIgnored_dir]
  rfl

theorem pruneIgnoredStep_file (n : String) :
    pruneIgnoredStep (.file n) = .file n := by
  unfold pruneIgnoredStep
  split <;> simp [dropContents]

theorem pruneIgnoredStep_other (n : String) :
    pruneIgnoredStep (.other n) = .other n := by
  unfold pruneIgnoredStep
  split <;> simp [dropContents]

theorem pruneIgnoredStep_dir_shape (n : String) (b : Bool) (cs : List FSTree) :
    ∃ cs', pruneIgnoredStep (.dir n b cs) = .dir n b cs' := by
  unfold pruneIgnoredStep
  split
  · exact ⟨[], by simp [dropContents]⟩
  · exact ⟨cs.map pruneIgnoredStep, pruneIgnored_dir_step n b cs⟩

theorem mem_directoriesOf_pred {cs : List FSTree} {d : String}
    (h : d ∈ directoriesOf cs) :
    isdir cs d = true ∧ is_ignored_dir d = false := by
  have hp := List.of_mem_filter h
  simp only [Bool.and_eq_true, Bool.not_eq_true'] at hp
  exact hp

theorem mem_markdown_filesOf_pred {cs : List FSTree} {x : String}
    (h : x ∈ markdown_filesOf cs) :
    isfile cs x = true ∧ endsWithMd x = true ∧ x ≠ "index.md" := by
  have hp := List.of_mem_filter h
  simp only [Bool.and_eq_true, Bool.not_eq_true', bne_iff_ne, ne_eq] at hp
  exact ⟨hp.2.1.1, hp.2.1.2, hp.2.2⟩

theorem mem_names_of_mem_markdown_filesOf {cs : List FSTree} {x : String}
    (h : x ∈ markdown_filesOf cs) : x ∈ cs.map FSTree.name :=
  mem_pySort.mp (List.mem_of_mem_filter h)

theorem mem_names_of_mem_directoriesOf {cs : List FSTree} {d : String}
    (h : d ∈ directoriesOf cs) : d ∈ cs.map FSTree.name :=
  mem_pySort.mp (List.mem_of_mem_filter h)

/-- Pruning below unlistable directories does not change the rendering:
recursion never descends past a `PermissionError`. -/
theorem generate_nested_list_pruneDenied (sep : Char) :
    ∀ t : FSTree, ∀ (relDir : List String) (i : Nat),
      generate_nested_list sep relDir i (pruneDenied t) =
        generate_nested_list sep relDir i t := by
  intro t
  induction t using FSTree.inductionOn with
  | hfile n => intro relDir i; simp
  | hother n => intro relDir i; simp
  | hdir n b cs ih =>
    intro relDir i
    cases b with
    | false => simp
    | true =>
      rw [pruneDenied_dir_true, generate_nested_list_dir,
        generate_nested_list_dir,
        markdown_filesOf_map_surface pruneDenied_file pruneDenied_other
          pruneDenied_dir_shape,
        directoriesOf_map_surface pruneDenied_file pruneDenied_other
          pruneDenied_dir_shape]
      congr 1
      refine congrArg concatLines (List.map_congr_left ?_)
      intro d hd
      congr 1
      unfold renderSub
      rw [findChild_map_surface pruneDenied_file pruneDenied_other
        pruneDenied_dir_shape]
      cases hf : findChild cs d with
      | none => simp
      | some c => simpa using ih c (findChild_mem hf) (relDir ++ [d]) (i + 1)

/-- Pruning below ignored-name directories does not change the rendering:
recursion never descends into them. -/
theorem generate_nested_list_pruneIgnored (sep : Char) :
    ∀ t : FSTree, ∀ (relDir : List String) (i : Nat),
      generate_nested_list sep relDir i (pruneIgnored t) =
        generate_nested_list sep relDir i t := by
  intro t
  induction t using FSTree.inductionOn with
  | hfile n => intro relDir i; simp
  | hother n => intro relDir i; simp
  | hdir n b cs ih =>
    intro relDir i
    cases b with
    | false => rw [pruneIgnored_dir_step]; simp
    | true =>
      rw [pruneIgnored_dir_step, generate_nested_list_dir,
        generate_nested_list_dir,
        markdown_filesOf_map_surface pruneIgnoredStep_file
          pruneIgnoredStep_other pruneIgnoredStep_dir_shape,
        directoriesOf_map_surface pruneIgnoredStep_file
          pruneIgnoredStep_other pruneIgnoredStep_dir_shape]
      congr 1
      refine congrArg concatLines (List.map_congr_left ?_)
      intro d hd
      have hdnotig : is_ignored_dir d = false := (mem_directoriesOf_pred hd).2
      congr 1
      unfold renderSub
      rw [findChild_map_surface pruneIgnoredStep_file pruneIgnoredStep_other
        pruneIgnoredStep_dir_shape]
      cases hf : findChild cs d with
      | none => simp
      | some c =>
        have hstep : pruneIgnoredStep c = pruneIgnored c := by
          unfold pruneIgnoredStep
          rw [findChild_name hf, hdnotig]
          simp
        simpa [hstep] using ih c (findChild_mem hf) (relDir ++ [d]) (i + 1)

/-! ### Characterizing one level's classification under distinct names -/

theorem isdir_eq_false_of_isfile {cs : List FSTree} {x : String}
    (h : isfile cs x = true) : isdir cs x = false := by
  rw [isfile_eq_true] at h
  rw [isdir, h]

theorem mem_markdown_filesOf_iff {cs : List FSTree} {x : String}
    (hnd : (cs.map FSTree.name).Nodup) :
    x ∈ markdown_filesOf cs ↔
      (FSTree.file x ∈ cs ∧ endsWithMd x = true ∧ x ≠ "index.md") := by
  constructor
  · intro h
    rcases mem_markdown_filesOf_pred h with ⟨hf, hmd, hne⟩
    exact ⟨findChild_mem (isfile_eq_true.mp hf), hmd, hne⟩
  · rintro ⟨hmem, hmd, hne⟩
    have hfc : findChild cs x = some (.file x) := by
      simpa [FSTree.name] using findChild_eq_some_of_mem hnd hmem
    have hisfile : isfile cs x = true := isfile_eq_true.mpr hfc
    have hisdir : isdir cs x = false := isdir_eq_false_of_isfile hisfile
    rw [markdown_filesOf, List.mem_filter]
    refine ⟨mem_pySort.mpr (List.mem_map.mpr ⟨.file x, hmem, rfl⟩), ?_⟩
    simp [hisfile, hisdir, hmd, hne]

theorem mem_directoriesOf_iff {cs : List FSTree} {d : String}
    (hnd : (cs.map FSTree.name).Nodup) :
    d ∈ directoriesOf cs ↔
      ((∃ b gs, FSTree.dir d b gs ∈ cs) ∧ is_ignored_dir d = false) := by
  constructor
  · intro h
    rcases mem_directoriesOf_pred h with ⟨hd, hni⟩
    rcases isdir_eq_true.mp hd with ⟨b, gs, hg⟩
    exact ⟨⟨b, gs, findChild_mem hg⟩, hni⟩
  · rintro ⟨⟨b, gs, hmem⟩, hni⟩
    have hfc : findChild cs d = some (.dir d b gs) := by
      simpa [FSTree.name] using findChild_eq_some_of_mem hnd hmem
    rw [directoriesOf, List.mem_filter]
    refine ⟨mem_pySort.mpr (List.mem_map.mpr ⟨.dir d b gs, hmem, rfl⟩), ?_⟩
    simp [isdir, hfc, hni]

theorem markdown_filesOf_nodup {cs : List FSTree}
    (hnd : (cs.map FSTree.name).Nodup) : (markdown_filesOf cs).Nodup :=
  (pySort_nodup hnd).filter _

theorem directoriesOf_nodup {cs : List FSTree}
    (hnd : (cs.map FSTree.name).Nodup) : (directoriesOf cs).Nodup :=
  (pySort_nodup hnd).filter _

theorem markdown_filesOf_sorted (cs : List FSTree) :
    (markdown_filesOf cs).Sorted (· ≤ ·) :=
  (pySort_sorted (cs.map FSTree.name)).sublist (List.filter_sublist _)

theorem directoriesOf_sorted (cs : List FSTree) :
    (directoriesOf cs).Sorted (· ≤ ·) :=
  (pySort_sorted (cs.map FSTree.name)).sublist (List.filter_sublist _)

/-! ### When is the rendered fragment blank? -/

theorem pyStripNonempty_of_star {s : String} (h : '*' ∈ s.data) :
    pyStripNonempty s = true := by
  unfold pyStripNonempty
  rw [List.any_eq_true]
  exact ⟨'*', h, by decide⟩

theorem star_mem_file_line (sep : Char) (relDir : List String) (i : Nat)
    (md : String) : '*' ∈ (file_line sep relDir i md).data := by
  unfold file_line
  simp only [String.data_append, List.mem_append]
  have h1 : '*' ∈ "* [".data := by decide
  exact Or.inl (Or.inl (Or.inl (Or.inl (Or.inr h1))))

theorem genList_blank_iff (sep : Char) (relDir : List String) (i : Nat)
    (n : String) (cs : List FSTree) :
    pyStripNonempty (generate_nested_list sep relDir i (.dir n true cs)) =
        false ↔
      (markdown_filesOf cs = [] ∧ directoriesOf cs = []) := by
  rw [generate_nested_list_dir]
  constructor
  · intro h
    cases hmf : markdown_filesOf cs with
    | cons x xs =>
      exfalso
      have hstar : '*' ∈ ((concatLines ((markdown_filesOf cs).map
          (file_line sep relDir i))) ++ (concatLines ((directoriesOf cs).map
            (fun directory => indentStr i ++ "* " ++ directory ++ "\n" ++
              renderSub sep relDir i cs directory)))).data := by
        rw [String.data_append, List.mem_append]
        refine Or.inl ?_
        refine mem_data_concatLines (List.mem_map.mpr ⟨x, ?_, rfl⟩)
          (star_mem_file_line sep relDir i x)
        rw [hmf]
        simp
      rw [pyStripNonempty_of_star hstar] at h
      cases h
    | nil =>
      cases hdir : directoriesOf cs with
      | cons d ds =>
        exfalso
        have hstar : '*' ∈ ((concatLines ((markdown_filesOf cs).map
            (file_line sep relDir i))) ++ (concatLines ((directoriesOf cs).map
              (fun directory => indentStr i ++ "* " ++ directory ++ "\n" ++
                renderSub sep relDir i cs directory)))).data := by
          rw [String.data_append, List.mem_append]
          refine Or.inr ?_
          refine mem_data_concatLines (List.mem_map.mpr ⟨d, ?_, rfl⟩) ?_
          · rw [hdir]
            simp
          · simp only [String.data_append, List.mem_append]
            have h1 : '*' ∈ "* ".data := by decide
            exact Or.inl (Or.inl (Or.inl (Or.inr h1)))
        rw [pyStripNonempty_of_star hstar] at h
        cases h
      | nil => exact ⟨rfl, rfl⟩
  · rintro ⟨h1, h2⟩
    rw [h1, h2]
    simp only [List.map_nil, concatLines_nil]
    decide

/-! ### The generator's own output file does not change later listings -/

theorem pySort_append_single (l : List String) (i : String) :
    pySort (l ++ [i]) = List.orderedInsert (· ≤ ·) i (pySort l) := by
  have hp : (pySort (l ++ [i])).Perm
      (List.orderedInsert (· ≤ ·) i (pySort l)) :=
    ((pySort_perm (l ++ [i])).trans (List.perm_append_singleton i l)).trans
      ((((pySort_perm l).symm).cons i).trans
        ((List.perm_orderedInsert (· ≤ ·) i (pySort l)).symm))
  exact List.eq_of_perm_of_sorted hp (pySort_sorted _)
    (List.Sorted.orderedInsert i (pySort l) (pySort_sorted l))

theorem filter_orderedInsert_neg (p : String → Bool) (i : String)
    (hi : p i = false) (l : List String) :
    (List.orderedInsert (· ≤ ·) i l).filter p = l.filter p := by
  induction l with
  | nil => simp [List.orderedInsert, List.filter, hi]
  | cons b bs ih =>
    rw [List.orderedInsert]
    split
    · rw [List.filter_cons, hi]
      simp
    · rw [List.filter_cons, List.filter_cons, ih]

theorem findChild_append_index {cs : List FSTree} {x : String}
    (hx : x ≠ "index.md") :
    findChild (cs ++ [FSTree.file "index.md"]) x = findChild cs x := by
  rw [findChild, findChild, List.find?_append]
  cases hf : cs.find? (fun c => c.name == x) with
  | some c => simp
  | none =>
    have hne : (FSTree.name (FSTree.file "index.md") == x) = false := by
      simp [FSTree.name]
      exact fun h => hx h.symm
    simp [List.find?, hne]

theorem filter_pySort_append_index {names : List String} {P Q : String → Bool}
    (hP : P "index.md" = false) (hPQ : ∀ x ∈ names, P x = Q x) :
    (pySort (names ++ ["index.md"])).filter P = (pySort names).filter Q := by
  rw [pySort_append_single, filter_orderedInsert_neg P _ hP]
  exact List.filter_congr (fun x hx => hPQ x (mem_pySort.mp hx))

theorem markdown_filesOf_append_index {cs : List FSTree}
    (hno : ∀ c ∈ cs, FSTree.name c ≠ "index.md") :
    markdown_filesOf (cs ++ [FSTree.file "index.md"]) = markdown_filesOf cs := by
  rw [markdown_filesOf, markdown_filesOf, List.map_append]
  refine filter_pySort_append_index ?_ ?_
  · simp
  · intro x hx
    rcases List.mem_map.mp hx with ⟨c, hc, hcx⟩
    have hxne : x ≠ "index.md" := hcx ▸ hno c hc
    rw [isdir, isdir, isfile, isfile, findChild_append_index hxne]

theorem directoriesOf_append_index {cs : List FSTree}
    (hno : ∀ c ∈ cs, FSTree.name c ≠ "index.md") :
    directoriesOf (cs ++ [FSTree.file "index.md"]) = directoriesOf cs := by
  rw [directoriesOf, directoriesOf, List.map_append]
  refine filter_pySort_append_index ?_ ?_
  · have hd : isdir (cs ++ [FSTree.file "index.md"]) "index.md" = false := by
      rw [isdir]
      cases hf : findChild (cs ++ [FSTree.file "index.md"]) "index.md" with
      | none => rfl
      | some c =>
        cases c with
        | file m => rfl
        | other m => rfl
        | dir m b gs =>
          exfalso
          have hmem := findChild_mem hf
          have hname := findChild_name hf
          simp only [FSTree.name] at hname
          rcases List.mem_append.mp hmem with h | h
          · exact hno _ h (by simp [FSTree.name, hname])
          · simp at h
    rw [hd]
    simp
  · intro x hx
    rcases List.mem_map.mp hx with ⟨c, hc, hcx⟩
    have hxne : x ≠ "index.md" := hcx ▸ hno c hc
    rw [isdir, isdir, findChild_append_index hxne]

theorem generate_nested_list_append_index (sep : Char)
    (relDir : List String) (i : Nat) (n : String) (cs : List FSTree)
    (hno : ∀ c ∈ cs, FSTree.name c ≠ "index.md") :
    generate_nested_list sep relDir i
        (.dir n true (cs ++ [.file "index.md"])) =
      generate_nested_list sep relDir i (.dir n true cs) := by
  rw [generate_nested_list_dir, generate_nested_list_dir,
    markdown_filesOf_append_index hno, directoriesOf_append_index hno]
  congr 1
  refine congrArg concatLines (List.map_congr_left ?_)
  intro d hd
  congr 1
  unfold renderSub
  have hdne : d ≠ "index.md" := by
    rcases List.mem_map.mp (mem_names_of_mem_directoriesOf hd) with ⟨c, hc, hcd⟩
    exact hcd ▸ hno c hc
  rw [findChild_append_index hdne]

theorem generate_markdown_index_dir (sep : Char) (n : String) (b : Bool)
    (cs : List FSTree) :
    generate_markdown_index sep (.dir n b cs) =
      "# " ++ n ++ "\n\n" ++ "## 目录\n\n" ++
        (if pyStripNonempty (generate_nested_list sep [] 0 (.dir n b cs))
         then generate_nested_list sep [] 0 (.dir n b cs)
         else "* 暂无内容\n") := rfl

theorem generate_markdown_index_addIndexFile (sep : Char) (n : String)
    (cs : List FSTree) :
    generate_markdown_index sep (addIndexFile (.dir n true cs)) =
      generate_markdown_index sep (.dir n true cs) := by
  rw [addIndexFile]
  split
  · rfl
  · rename_i hany
    have hno : ∀ c ∈ cs, FSTree.name c ≠ "index.md" := by
      simpa using hany
    rw [generate_markdown_index_dir, generate_markdown_index_dir,
      generate_nested_list_append_index sep [] 0 n cs hno]

/-! ### No backslash ever reaches the output when names are clean -/

theorem backslash_not_mem_of_bf {s : String}
    (h : s.data.all (fun c => !(c == '\\')) = true) : '\\' ∉ s.data := by
  rw [List.all_eq_true] at h
  intro hmem
  have := h '\\' hmem
  simp at this

theorem name_backslashFree {c : FSTree} (h : namesBackslashFree c = true) :
    '\\' ∉ (FSTree.name c).data := by
  cases c with
  | file n => exact backslash_not_mem_of_bf (by simpa using h)
  | other n => exact backslash_not_mem_of_bf (by simpa using h)
  | dir n b cs =>
    rw [namesBackslashFree_dir] at h
    simp only [Bool.and_eq_true] at h
    exact backslash_not_mem_of_bf h.1

theorem namesBackslashFree_children {n : String} {b : Bool}
    {cs : List FSTree} (h : namesBackslashFree (.dir n b cs) = true) :
    ∀ c ∈ cs, namesBackslashFree c = true := by
  rw [namesBackslashFree_dir] at h
  simp only [Bool.and_eq_true, List.all_eq_true] at h
  exact fun c hc => h.2 c hc

theorem backslash_not_mem_indentStr (i : Nat) :
    '\\' ∉ (indentStr i).data := by
  induction i with
  | zero =>
    intro h
    simp [indentStr] at h
  | succ k ih =>
    intro h
    rw [indentStr, String.data_append] at h
    rcases List.mem_append.mp h with h | h
    · exact absurd h (by decide)
    · exact ih h

theorem backslash_not_mem_pyReplaceBackslash (s : String) :
    '\\' ∉ (pyReplaceBackslash s).data := by
  unfold pyReplaceBackslash
  intro h
  rcases List.mem_map.mp h with ⟨x, _, hx⟩
  by_cases hxb : x = '\\'
  · rw [if_pos hxb] at hx
    exact absurd hx (by decide)
  · rw [if_neg hxb] at hx
    exact hxb hx

theorem backslash_not_mem_file_line {sep : Char} {relDir : List String}
    {i : Nat} {md : String} (hmd : '\\' ∉ md.data) :
    '\\' ∉ (file_line sep relDir i md).data := by
  unfold file_line
  intro h
  simp only [String.data_append, List.mem_append] at h
  rcases h with ((((h | h) | h) | h) | h) | h
  · exact backslash_not_mem_indentStr i h
  · exact absurd h (by decide)
  · exact hmd (List.take_subset _ _ h)
  · exact absurd h (by decide)
  · by_cases hc : relpathString sep relDir = "."
    · rw [if_pos hc] at h
      exact hmd h
    · rw [if_neg hc] at h
      simp only [String.data_append, List.mem_append] at h
      rcases h with (h | h) | h
      · exact backslash_not_mem_pyReplaceBackslash _ h
      · exact absurd h (by decide)
      · exact hmd h
  · exact absurd h (by decide)

theorem generate_nested_list_no_backslash (sep : Char) :
    ∀ t : FSTree, namesBackslashFree t = true →
      ∀ (relDir : List String) (i : Nat),
        '\\' ∉ (generate_nested_list sep relDir i t).data := by
  intro t
  induction t using FSTree.inductionOn with
  | hfile n =>
    intro _ relDir i h
    simp at h
  | hother n =>
    intro _ relDir i h
    simp at h
  | hdir n b cs ih =>
    intro hbf relDir i
    cases b with
    | false =>
      intro h
      rw [generate_nested_list_denied, String.data_append] at h
      rcases List.mem_append.mp h with h | h
      · exact backslash_not_mem_indentStr i h
      · exact absurd h (by decide)
    | true =>
      intro h
      rw [generate_nested_list_dir, String.data_append] at h
      have hnames : ∀ x ∈ cs.map FSTree.name, '\\' ∉ x.data := by
        intro x hx
        rcases List.mem_map.mp hx with ⟨c, hc, hcx⟩
        exact hcx ▸ name_backslashFree (namesBackslashFree_children hbf c hc)
      rcases List.mem_append.mp h with h | h
      · rcases data_concatLines_subset h with ⟨s, hs, hcs⟩
        rcases List.mem_map.mp hs with ⟨md, hmd, hsl⟩
        subst hsl
        exact backslash_not_mem_file_line
          (hnames md (mem_names_of_mem_markdown_filesOf hmd)) hcs
      · rcases data_concatLines_subset h with ⟨s, hs, hcs⟩
        rcases List.mem_map.mp hs with ⟨d, hd, hsl⟩
        subst hsl
        simp only [String.data_append, List.mem_append] at hcs
        rcases hcs with (((hc | hc) | hc) | hc) | hc
        · exact backslash_not_mem_indentStr i hc
        · exact absurd hc (by decide)
        · exact hnames d (mem_names_of_mem_directoriesOf hd) hc
        · exact absurd hc (by decide)
        · unfold renderSub at hc
          rcases hf : findChild cs d with _ | c
          · rw [hf] at hc
            simp at hc
          · rw [hf] at hc
            exact ih c (findChild_mem hf)
              (namesBackslashFree_children hbf c (findChild_mem hf))
              (relDir ++ [d]) (i + 1) hc

/-- The emitted file line, written against the specification's description of
the link: filename alone at the scan root, otherwise the relative path of
the containing directory with separators normalized to `/`, joined to the
filename with `/`. -/
theorem file_line_spec (sep : Char) (relDir : List String) (i : Nat)
    (md : String) (hsep : sep = '/' ∨ sep = '\\')
    (hcomp : ∀ c ∈ relDir, c ≠ "." ∧ '\\' ∉ c.data) :
    file_line sep relDir i md =
      indentStr i ++ "* [" ++ pyDropLast3 md ++ "](" ++
        (if relDir = [] then md
         else joinSep '/' relDir ++ "/" ++ md) ++ ")\n" := by
  have hfl : file_line sep relDir i md =
      indentStr i ++ "* [" ++ pyDropLast3 md ++ "](" ++
        (if relpathString sep relDir = "." then md
         else pyReplaceBackslash (relpathString sep relDir) ++ "/" ++ md) ++
        ")\n" := rfl
  rw [hfl]
  by_cases hnil : relDir = []
  · subst hnil
    simp [relpathString]
  · have hsepdot : sep ≠ '.' := by
      rcases hsep with h | h <;> subst h <;> decide
    have hrel : relpathString sep relDir = joinSep sep relDir := by
      rw [relpathString, if_neg]
      simpa [List.isEmpty_iff] using hnil
    have hdot : relpathString sep relDir ≠ "." := by
      rw [hrel]
      exact joinSep_ne_dot hsepdot (fun c hc => (hcomp c hc).1) hnil
    rw [if_neg hdot, if_neg hnil, hrel,
      pyReplaceBackslash_joinSep hsep (fun c hc => (hcomp c hc).2)]

/-- Replacing the backslashes of a joined path replaces the separators (when
the host separator is `/` or `\`) and, independently, every backslash inside
the component names themselves. -/
theorem pyReplaceBackslash_joinSep_map {sep : Char} (comps : List String)
    (hsep : sep = '/' ∨ sep = '\\') :
    pyReplaceBackslash (joinSep sep comps) =
      joinSep '/' (comps.map pyReplaceBackslash) := by
  induction comps with
  | nil => rfl
  | cons c rest ih =>
    cases rest with
    | nil => rfl
    | cons d cs =>
      rw [joinSep_cons_cons, List.map_cons, pyReplaceBackslash_append,
        pyReplaceBackslash_append, pyReplaceBackslash_singleton hsep,
        ih]
      rfl

/-- The emitted file line, exactly as the code computes the link: filename
alone at the scan root, otherwise the root-relative directory path with
every backslash character (separator or part of a name) replaced by `/`,
joined to the filename with `/`.  Only the branch condition needs a
hypothesis: no listed component is named `.`. -/
theorem file_line_spec_replace (sep : Char) (relDir : List String) (i : Nat)
    (md : String) (hsep : sep = '/' ∨ sep = '\\')
    (hcomp : ∀ c ∈ relDir, c ≠ ".") :
    file_line sep relDir i md =
      indentStr i ++ "* [" ++ pyDropLast3 md ++ "](" ++
        (if relDir = [] then md
         else joinSep '/' (relDir.map pyReplaceBackslash) ++ "/" ++ md) ++
        ")\n" := by
  have hfl : file_line sep relDir i md =
      indentStr i ++ "* [" ++ pyDropLast3 md ++ "](" ++
        (if relpathString sep relDir = "." then md
         else pyReplaceBackslash (relpathString sep relDir) ++ "/" ++ md) ++
        ")\n" := rfl
  rw [hfl]
  by_cases hnil : relDir = []
  · subst hnil
    simp [relpathString]
  · have hsepdot : sep ≠ '.' := by
      rcases hsep with h | h <;> subst h <;> decide
    have hrel : relpathString sep relDir = joinSep sep relDir := by
      rw [relpathString, if_neg]
      simpa [List.isEmpty_iff] using hnil
    have hdot : relpathString sep relDir ≠ "." := by
      rw [hrel]
      exact joinSep_ne_dot hsepdot hcomp hnil
    rw [if_neg hdot, if_neg hnil, hrel,
      pyReplaceBackslash_joinSep_map relDir hsep]

/-! ## The claims -/

/-- Claim C1: for every directory that lists successfully (with the distinct
entry names every real directory listing has), the rendered fragment at that
level consists of exactly the Markdown files directly in it other than
`index.md` and exactly the non-ignored immediate subdirectories, each
appearing exactly once, with all file lines before all directory blocks, and
with the sorted order of the raw listing preserved within each group. -/
theorem claim_C1 (sep : Char) (relDir : List String) (i : Nat) (n : String)
    (cs : List FSTree) (hnd : (cs.map FSTree.name).Nodup) :
    generate_nested_list sep relDir i (.dir n true cs) =
        concatLines ((markdown_filesOf cs).map (file_line sep relDir i)) ++
        concatLines ((directoriesOf cs).map (fun d =>
          indentStr i ++ "* " ++ d ++ "\n" ++ renderSub sep relDir i cs d)) ∧
      (∀ x, x ∈ markdown_filesOf cs ↔
        (FSTree.file x ∈ cs ∧ endsWithMd x = true ∧ x ≠ "index.md")) ∧
      (∀ d, d ∈ directoriesOf cs ↔
        ((∃ b gs, FSTree.dir d b gs ∈ cs) ∧ is_ignored_dir d = false)) ∧
      (markdown_filesOf cs).Nodup ∧ (directoriesOf cs).Nodup ∧
      (markdown_filesOf cs).Sorted (· ≤ ·) ∧
      (directoriesOf cs).Sorted (· ≤ ·) :=
  ⟨generate_nested_list_dir sep relDir i n cs,
   fun _ => mem_markdown_filesOf_iff hnd,
   fun _ => mem_directoriesOf_iff hnd,
   markdown_filesOf_nodup hnd, directoriesOf_nodup hnd,
   markdown_filesOf_sorted cs, directoriesOf_sorted cs⟩

/-- Witness for C1 at a concrete listing: the file `z.md` is rendered first
even though the directory `a` sorts before it. -/
theorem claim_C1_witness :
    generate_nested_list '/' [] 0
        (.dir "r" true [FSTree.file "z.md", FSTree.dir "a" true []]) =
      concatLines ((markdown_filesOf
          [FSTree.file "z.md", FSTree.dir "a" true []]).map
        (file_line '/' [] 0)) ++
      concatLines ((directoriesOf
          [FSTree.file "z.md", FSTree.dir "a" true []]).map (fun d =>
        indentStr 0 ++ "* " ++ d ++ "\n" ++
          renderSub '/' [] 0 [FSTree.file "z.md", FSTree.dir "a" true []] d)) :=
  (claim_C1 '/' [] 0 "r" [FSTree.file "z.md", FSTree.dir "a" true []]
    (by decide)).1

/-- Claim C2 fails as stated: the code replaces every backslash character of
the relative directory path, including backslashes that are part of a legal
POSIX directory name and not path separators.  For a file `f.md` inside a
directory named `a\b` directly below the scan root (host separator `/`),
the code emits the link `a/b/f.md`, not the claimed path `a\b/f.md` with
only separators normalized. -/
theorem claim_C2_counterexample :
    file_line '/' ["a\\b"] 0 "f.md" = "* [f](a/b/f.md)\n" ∧
    file_line '/' ["a\\b"] 0 "f.md" ≠
      indentStr 0 ++ "* [" ++ pyDropLast3 "f.md" ++ "](" ++
        (if (["a\\b"] : List String) = [] then "f.md"
         else joinSep '/' ["a\\b"] ++ "/" ++ "f.md") ++ ")\n" := by
  decide

/-- Claim C2 as amended: a rendered Markdown file links to the bare filename
when its directory is the scan root, and otherwise to the root-relative
directory path with every backslash character replaced by `/` — the path
separators, but also backslashes occurring inside directory names — joined
to the filename with `/`; the display text is the filename with the `.md`
suffix stripped.  The only listing-shape hypothesis left is that no
component is named `.`, which `os.listdir` never returns. -/
theorem claim_C2_amended (sep : Char) (relDir : List String) (i : Nat)
    (md : String) (hsep : sep = '/' ∨ sep = '\\')
    (hcomp : ∀ c ∈ relDir, c ≠ ".") (hmd : endsWithMd md = true) :
    file_line sep relDir i md =
      indentStr i ++ "* [" ++ pyDropLast3 md ++ "](" ++
        (if relDir = [] then md
         else joinSep '/' (relDir.map pyReplaceBackslash) ++ "/" ++ md) ++
        ")\n" ∧
    pyDropLast3 md ++ ".md" = md :=
  ⟨file_line_spec_replace sep relDir i md hsep hcomp,
   pyDropLast3_append_md hmd⟩

/-- Witness for the amended C2, at a clean name one directory below the root
and at the counterexample's backslash-bearing name. -/
theorem claim_C2_witness :
    ((file_line '/' ["docs"] 1 "note.md" =
      indentStr 1 ++ "* [" ++ pyDropLast3 "note.md" ++ "](" ++
        (if (["docs"] : List String) = [] then "note.md"
         else joinSep '/' (["docs"].map pyReplaceBackslash) ++ "/" ++
           "note.md") ++ ")\n") ∧
      pyDropLast3 "note.md" ++ ".md" = "note.md") ∧
    ((file_line '/' ["a\\b"] 0 "f.md" =
      indentStr 0 ++ "* [" ++ pyDropLast3 "f.md" ++ "](" ++
        (if (["a\\b"] : List String) = [] then "f.md"
         else joinSep '/' (["a\\b"].map pyReplaceBackslash) ++ "/" ++
           "f.md") ++ ")\n") ∧
      pyDropLast3 "f.md" ++ ".md" = "f.md") :=
  ⟨claim_C2_amended '/' ["docs"] 1 "note.md" (Or.inl rfl) (by decide)
      (by decide),
   claim_C2_amended '/' ["a\\b"] 0 "f.md" (Or.inl rfl) (by decide)
      (by decide)⟩

/-- Claim C3: the written file is the level-1 heading with the root's base
name, a blank line, `## 目录`, a blank line, then the rendered list; when the
root has no listable content the body is exactly `* 暂无内容\n`; and the
written content ignores whatever the output file held before (mode `w`). -/
theorem claim_C3 (sep : Char) (n : String) (cs : List FSTree)
    (hmd : markdown_filesOf cs = []) (hdir : directoriesOf cs = []) :
    (∀ (previous : String) (root : FSTree),
      written_file_content previous sep root =
        generate_markdown_index sep root) ∧
    (∀ (b : Bool) (cs2 : List FSTree),
      generate_markdown_index sep (.dir n b cs2) =
        "# " ++ n ++ "\n\n" ++ "## 目录\n\n" ++
          (if pyStripNonempty (generate_nested_list sep [] 0 (.dir n b cs2))
           then generate_nested_list sep [] 0 (.dir n b cs2)
           else "* 暂无内容\n")) ∧
    generate_markdown_index sep (.dir n true cs) =
      "# " ++ n ++ "\n\n" ++ "## 目录\n\n" ++ "* 暂无内容\n" := by
  refine ⟨fun _ _ => rfl,
    fun b cs2 => generate_markdown_index_dir sep n b cs2, ?_⟩
  rw [generate_markdown_index_dir]
  have hblank := (genList_blank_iff sep [] 0 n cs).mpr ⟨hmd, hdir⟩
  rw [hblank]
  simp

/-- Witness for C3 on an empty subdirectory. -/
theorem claim_C3_witness :
    generate_markdown_index '/' (.dir "sub" true []) =
      "# " ++ "sub" ++ "\n\n" ++ "## 目录\n\n" ++ "* 暂无内容\n" :=
  (claim_C3 '/' "sub" [] (by decide) (by decide)).2.2

/-- Claim C4: a directory whose listing raises a permission error renders as
the single bullet `* [无法访问目录]` at its indentation, and the rendering of
the whole tree never depends on anything below an unlistable directory, so
siblings and ancestors are unaffected. -/
theorem claim_C4 (sep : Char) (relDir : List String) (i : Nat) :
    (∀ (n : String) (cs : List FSTree),
      generate_nested_list sep relDir i (.dir n false cs) =
        indentStr i ++ "* [无法访问目录]\n") ∧
    (∀ t : FSTree,
      generate_nested_list sep relDir i (pruneDenied t) =
        generate_nested_list sep relDir i t) :=
  ⟨fun n cs => generate_nested_list_denied sep relDir i n cs,
   fun t => generate_nested_list_pruneDenied sep t relDir i⟩

/-- Claim C5: a working-directory permission error is the only non-zero
exit; otherwise the exit status is `0` whatever the per-subdirectory
outcomes, every filtered subdirectory gets exactly one printed line, and
each line depends only on that subdirectory's own outcome. -/
theorem claim_C5 (sep : Char) (current_dir : String) (items : List FSTree)
    (gen : String → Except String Unit) :
    main_model sep current_dir none gen = ⟨["错误: 无法访问当前目录"], 1⟩ ∧
    (main_model sep current_dir (some items) gen).exit_code = 0 ∧
    (main_model sep current_dir (some items) gen).printed =
      (if (mainDirectoriesOf items).isEmpty then ["当前目录下没有子目录"]
       else (mainDirectoriesOf items).map
         (per_directory_line sep current_dir gen)) ∧
    (main_model sep current_dir (some items) gen).printed.length =
      (if (mainDirectoriesOf items).isEmpty then 1
       else (mainDirectoriesOf items).length) := by
  refine ⟨rfl, ?_, ?_, ?_⟩ <;>
    cases hemp : (mainDirectoriesOf items).isEmpty <;>
      simp [main_model, hemp]

/-- Claim C6: rerunning the generator after it has written `index.md` into
the scan root produces the same output text, so a second run over the
unchanged tree writes byte-identical files. -/
theorem claim_C6 (sep : Char) (n : String) (cs : List FSTree) :
    generate_markdown_index sep (addIndexFile (.dir n true cs)) =
      generate_markdown_index sep (.dir n true cs) :=
  generate_markdown_index_addIndexFile sep n cs

/-- Claim C7: the name `index.md` never survives the file filter, at any
level, and every file entry a fragment renders comes from that filter. -/
theorem claim_C7 :
    (∀ cs : List FSTree,
      (markdown_filesOf cs).all (fun x => x != "index.md") = true) ∧
    (∀ (sep : Char) (relDir : List String) (i : Nat) (n : String)
        (cs : List FSTree),
      generate_nested_list sep relDir i (.dir n true cs) =
        concatLines ((markdown_filesOf cs).map (file_line sep relDir i)) ++
        concatLines ((directoriesOf cs).map (fun d =>
          indentStr i ++ "* " ++ d ++ "\n" ++
            renderSub sep relDir i cs d))) := by
  constructor
  · intro cs
    rw [List.all_eq_true]
    intro x hx
    simpa using (mem_markdown_filesOf_pred hx).2.2
  · exact generate_nested_list_dir

/-- Claim C8: ignored directory names never appear among the rendered
subdirectories at any level, rendering never depends on anything below an
ignored-name directory, and the driver never selects an ignored name. -/
theorem claim_C8 :
    (∀ cs : List FSTree,
      (directoriesOf cs).all (fun d => !is_ignored_dir d) = true) ∧
    (∀ (sep : Char) (t : FSTree) (relDir : List String) (i : Nat),
      generate_nested_list sep relDir i (pruneIgnored t) =
        generate_nested_list sep relDir i t) ∧
    (∀ items : List FSTree,
      (mainDirectoriesOf items).all (fun d => !is_ignored_dir d) = true) := by
  refine ⟨?_, fun sep t relDir i =>
    generate_nested_list_pruneIgnored sep t relDir i, ?_⟩
  · intro cs
    rw [List.all_eq_true]
    intro d hd
    simpa using (mem_directoriesOf_pred hd).2
  · intro items
    rw [List.all_eq_true]
    intro d hd
    have hp := List.of_mem_filter hd
    simp only [Bool.and_eq_true, Bool.not_eq_true'] at hp
    simpa using hp.2

/-- Claim C9 fails as stated: on a POSIX host a file name may itself contain
a backslash, and the filename part of the link is not normalized, so the
emitted link contains a backslash. -/
theorem claim_C9_counterexample :
    '\\' ∈ (generate_nested_list '/' [] 0
      (.dir "r" true [FSTree.file "a\\b.md"])).data := by
  rw [generate_nested_list_dir]
  decide

/-- Claim C9 as amended: provided no entry name itself contains a backslash
(true of every Windows tree, where the claim's concern lies), the whole
rendered fragment contains no backslash character whichever host separator
is in use, and every file line links to the root-relative path joined with
forward slashes. -/
theorem claim_C9_amended (sep : Char) (t : FSTree) (relDir : List String)
    (i : Nat) (hsep : sep = '/' ∨ sep = '\\')
    (hbf : namesBackslashFree t = true)
    (hcomp : ∀ c ∈ relDir, c ≠ "." ∧ '\\' ∉ c.data) :
    '\\' ∉ (generate_nested_list sep relDir i t).data ∧
    (∀ md : String, file_line sep relDir i md =
      indentStr i ++ "* [" ++ pyDropLast3 md ++ "](" ++
        (if relDir = [] then md
         else joinSep '/' relDir ++ "/" ++ md) ++ ")\n") :=
  ⟨generate_nested_list_no_backslash sep t hbf relDir i,
   fun md => file_line_spec sep relDir i md hsep hcomp⟩

/-- Witness for the amended C9 on a concrete clean tree. -/
theorem claim_C9_witness :
    '\\' ∉ (generate_nested_list '/' [] 0
      (.dir "r" true [FSTree.file "a.md"])).data :=
  (claim_C9_amended '/' (.dir "r" true [FSTree.file "a.md"]) [] 0
    (Or.inl rfl)
    (by simp +decide [namesBackslashFree_dir, namesBackslashFree_file])
    (by simp)).1

/-- Claim C10: when the scan root itself cannot be listed the written body
is the inaccessibility bullet, not the placeholder; the placeholder branch
is taken exactly when the root lists successfully and yields no Markdown
file and no non-ignored subdirectory. -/
theorem claim_C10 (sep : Char) (n : String) (cs : List FSTree) :
    generate_markdown_index sep (.dir n false cs) =
      "# " ++ n ++ "\n\n" ++ "## 目录\n\n" ++
        (indentStr 0 ++ "* [无法访问目录]\n") ∧
    (pyStripNonempty (generate_nested_list sep [] 0 (.dir n true cs)) =
        false ↔
      (markdown_filesOf cs = [] ∧ directoriesOf cs = [])) := by
  constructor
  · rw [generate_markdown_index_dir, generate_nested_list_denied]
    have hstar : pyStripNonempty (indentStr 0 ++ "* [无法访问目录]\n") =
        true := by decide
    rw [hstar]
    simp
  · exact genList_blank_iff sep [] 0 n cs
